import Mathlib

/-!
Verification model of `src/python/twitter/pants/base/build_cache.py`
(module `twitter.pants.base.build_cache` of the commons repository).

Paths are modelled as lists of path components (the pieces between the
separators of an absolute POSIX path).  The filesystem is a total map
from component paths to a per-path result: the file is missing, has a
byte content (modelled as a `String`), or reading it raises an `IOError`
with a given errno.  The SHA1 accumulator of `hashlib` is modelled by
the exact byte stream fed to it via `sha.update(...)`; `hexdigest()` is
modelled by an injective fixed-width hexadecimal rendering of that
stream, which shares with real `sha1().hexdigest()` the two properties
the specification relies on: equal update streams give equal digests,
and the digest text consists of hexadecimal characters only (hence is
unchanged by `str.strip`).  Collision-freeness of SHA1 itself is assumed
by reading "digest" as "update stream rendered in hex".
-/

namespace BuildCacheModel

/-- Result of looking one path up in the filesystem: absent, a regular
file with the given content, or a file whose read raises `IOError` with
the given errno. -/
inductive FileRes where
  | missing : FileRes
  | ok (content : String) : FileRes
  | err (errno : Nat) : FileRes
deriving DecidableEq, Repr

/-- Errno of "No such file or directory", as in the `errno` module on Linux. -/
def ENOENT : Nat := 2

/-- A filesystem state: a total map from component paths to file results. -/
structure FS where
  files : List String → FileRes

/-- Boolean path-prefix test on component lists (`q` lies at or under `p`). -/
def isPref : List String → List String → Bool
  | [], _ => true
  | _ :: _, [] => false
  | a :: as, b :: bs => a = b && isPref as bs

/-- Append a suffix to the last component of a path (models Python string
concatenation `os.path.join(root, id) + '.hash'`). -/
def appendToLast (suf : String) : List String → List String
  | [] => [suf]
  | [x] => [x ++ suf]
  | x :: xs => x :: appendToLast suf xs

/-- Write one file in the filesystem. -/
def FS.setFile (s : FS) (p : List String) (v : FileRes) : FS :=
  ⟨fun q => if q = p then v else s.files q⟩

/-- Modelled from the spec: `safe_rmtree` of `twitter.common.dirutil`
(declared but not present under `src/`): best-effort recursive deletion
of the directory tree rooted at `p`; after it, every path at or under
`p` is absent, and nothing else changes. -/
def FS.rmtree (s : FS) (p : List String) : FS :=
  ⟨fun q => if isPref p q then .missing else s.files q⟩

/-! ### File trees, `os.walk` and `_walk_paths` -/

/-- A named directory entry, used to model the content of a directory on
disk.  The order of a directory's entry list is the OS listing order
(the order `os.listdir`, and hence `os.walk`, reports names in). -/
inductive Entry where
  | file (name : String) (content : String) : Entry
  | dir (name : String) (entries : List Entry) : Entry
deriving Repr

/-- A node a given absolute path resolves to: a regular file with a
content, or a directory with a list of entries in OS listing order. -/
inductive ANode where
  | file (content : String) : ANode
  | dir (entries : List Entry) : ANode
deriving Repr

/-- Files directly inside a directory, as (name, content) pairs in
listing order (the `filenames` component of an `os.walk` triple). -/
def filesOf : List Entry → List (String × String)
  | [] => []
  | .file n c :: rest => (n, c) :: filesOf rest
  | .dir _ _ :: rest => filesOf rest

/-- Join path components with the POSIX separator. -/
def joinComps : List String → String
  | [] => ""
  | [x] => x
  | x :: xs => x ++ "/" ++ joinComps xs

mutual
/-- All triples produced by `os.walk` on a directory, top-down, subdirs
in listing order.  Each triple is the absolute dirpath (for sorting, as
`sorted(os.walk(path))` sorts by it) together with the contained files as
(name relative to the walk root, content) pairs in listing order.  The
relative name is `os.path.relpath(os.path.join(dir_name, filename), path)`
computed structurally. -/
def walkDir (abs : String) (rel : List String) (es : List Entry) :
    List (String × List (String × String)) :=
  (abs, (filesOf es).map (fun nc => (joinComps (rel ++ [nc.1]), nc.2))) ::
    walkSubs abs rel es

/-- Walk the subdirectories of a directory, in listing order. -/
def walkSubs (abs : String) (rel : List String) :
    List Entry → List (String × List (String × String))
  | [] => []
  | .file _ _ :: rest => walkSubs abs rel rest
  | .dir n sub :: rest =>
      walkDir (abs ++ "/" ++ n) (rel ++ [n]) sub ++ walkSubs abs rel rest
end

/-! ### Python `sorted` -/

/-- Insert an element into a sorted list (helper of `pySorted`). -/
def insertLe (le : α → α → Bool) (x : α) : List α → List α
  | [] => [x]
  | y :: ys => if le x y then x :: y :: ys else y :: insertLe le x ys

/-- Model of Python's builtin `sorted` with comparator `le`: a sorting of
the list.  All uses in the source sort by keys that are pairwise distinct
in any real filesystem (path strings), so any correct sorting algorithm
yields the order Python's stable sort yields. -/
def pySorted (le : α → α → Bool) : List α → List α
  | [] => []
  | x :: xs => insertLe le x (pySorted le xs)

/-- Lexicographic comparison of character lists by code point (helper of
`leStr`). -/
def lexLe : List Char → List Char → Bool
  | [], _ => true
  | _ :: _, [] => false
  | a :: as, b :: bs => if a = b then lexLe as bs else decide (a.toNat < b.toNat)

/-- Comparator used for sorting path strings: Python compares strings
lexicographically by code point. -/
def leStr (a b : String) : Bool := lexLe a.data b.data

/-- Characters of the last slash-separated component (helper of
`basenameOf`); `acc` holds the current component reversed. -/
def lastCompAux : List Char → List Char → List Char
  | [], acc => acc.reverse
  | c :: rest, acc => if c = '/' then lastCompAux rest [] else lastCompAux rest (c :: acc)

/-- Last component of a path string, models `os.path.basename`. -/
def basenameOf (p : String) : String :=
  ⟨lastCompAux p.data []⟩

/-- The walk of one input path of `_walk_paths`: a directory yields the
files of its sorted `os.walk` triples, a plain file yields its basename. -/
def walkOne (p : String) (node : ANode) : List (String × String) :=
  match node with
  | .file c => [(basenameOf p, c)]
  | .dir es =>
      ((pySorted (fun a b => leStr a.1 b.1) (walkDir p [] es)).map Prod.snd).flatten

/-- Model of `BuildCache._walk_paths`: sort the input paths, then yield
(relative name, content) for every file reachable under each path.  The
input carries, for each path, the node the filesystem resolves it to. -/
def walk_paths (paths : List (String × ANode)) : List (String × String) :=
  ((pySorted (fun a b => leStr a.1 b.1) paths).map
    (fun pn => walkOne pn.1 pn.2)).flatten

/-- Model of `BuildCache._sources_hash`: the byte stream fed to the SHA1
accumulator — for each walked file, its relative name followed by its
content, with no separator. -/
def sources_hash (paths : List (String × ANode)) : String :=
  ((walk_paths paths).map (fun rc => rc.1 ++ rc.2)).foldl (· ++ ·) ""

/-! ### Hex digest and Python `strip` -/

/-- One lower-case hexadecimal digit character. -/
def hexDigitChar : Nat → Char
  | 0 => '0' | 1 => '1' | 2 => '2' | 3 => '3'
  | 4 => '4' | 5 => '5' | 6 => '6' | 7 => '7'
  | 8 => '8' | 9 => '9' | 10 => 'a' | 11 => 'b'
  | 12 => 'c' | 13 => 'd' | 14 => 'e' | 15 => 'f'
  | _ => 'x'

/-- Fixed-width little-endian hexadecimal rendering of a natural number. -/
def hexChars : Nat → Nat → List Char
  | 0, _ => []
  | k + 1, n => hexDigitChar (n % 16) :: hexChars k (n / 16)

/-- Model of `sha.hexdigest()` as a function of the accumulated update
stream: an injective, all-hexadecimal rendering of the stream.  Shares
with SHA1 exactly the properties the claims use (see the module header). -/
def hexDigest (s : String) : String :=
  ⟨(s.data.map (fun c => hexChars 8 c.toNat)).flatten⟩

/-- Characters Python's `str.strip()` removes. -/
def pyIsSpace (c : Char) : Bool :=
  c = ' ' || c = '\t' || c = '\n' || c = '\x0d' || c = '\x0b' || c = '\x0c'

/-- Model of Python's `str.strip()`: drop whitespace from both ends. -/
def pyStrip (s : String) : String :=
  ⟨((s.data.dropWhile pyIsSpace).reverse.dropWhile pyIsSpace).reverse⟩

/-! ### Cache keys, targets and source scopes -/

/-- Model of the `CacheKey` namedtuple: the selected sources, the hex
digest, and the entry path `os.path.join(root, id)` in components. -/
structure CacheKey where
  sources : List (String × ANode)
  hash : String
  filename : List String
deriving Repr

/-- Model of `BuildCache._sha_file`: `os.path.join(root, filename) + '.hash'`.
Since `filename` is itself an absolute path under the root, the join
returns it unchanged and `'.hash'` is appended to its last component. -/
def sha_file (filename : List String) : List String :=
  appendToLast ".hash" filename

/-- Model of `BuildCache._key_for`. -/
def key_for_hashed (root id : List String) (stream : String)
    (sources : List (String × ANode)) : CacheKey :=
  ⟨sources, hexDigest stream, root ++ id⟩

/-- Model of `BuildCache.key_for`: hash the given sources and build the key. -/
def key_for (root id : List String) (sources : List (String × ANode)) : CacheKey :=
  key_for_hashed root id (sources_hash sources) sources

/-- Model of a unit of work (a pants target): its id (as components of
the entry path it maps to under the cache root) and, when the target has
the `expand_files` capability, the function from the `recursive` flag to
the files it expands to (as absolute path / node pairs so they can be
hashed); `none` models a target without the attribute, on which calling
`expand_files` raises `AttributeError`. -/
structure Target where
  id : List String
  expand_files : Option (Bool → List (String × ANode))

/-- Model of the canonical source scopes of the module: `NO_SOURCES`,
`TARGET_SOURCES` and `TRANSITIVE_SOURCES`. -/
inductive SourceScope where
  | noSources : SourceScope
  | targetSources : SourceScope
  | transitiveSources : SourceScope
deriving DecidableEq, Repr

/-- Model of `SourceScope.valid`: `hasattr(target, 'expand_files')`,
uniform over all scopes. -/
def SourceScope.valid (_ : SourceScope) (t : Target) : Bool :=
  t.expand_files.isSome

/-- Result of a scope's `select`: `none` models the `AttributeError`
raised when the selector calls `expand_files` on a target lacking it. -/
def SourceScope.select : SourceScope → Target → Option (List (String × ANode))
  | .noSources, _ => some []
  | .targetSources, t => t.expand_files.map (fun f => f false)
  | .transitiveSources, t => t.expand_files.map (fun f => f true)

/-- Errors `key_for_target` can surface: the `ValueError` of the explicit
precondition check (the spec's `InvalidKeyRequest`), or the
`AttributeError` escaping from `sources.select(target)` when the selected
scope needs `expand_files` and the target lacks it. -/
inductive KeyErr where
  | invalidKeyRequest : KeyErr
  | attributeError : KeyErr
deriving DecidableEq, Repr

/-- Model of `BuildCache.key_for_target`.  `fingerprint_extra` is modelled
by the bytes it feeds to the accumulator via `sha.update` (`none` when no
function is supplied). -/
def key_for_target (root : List String) (t : Target)
    (sources : Option SourceScope) (fingerprint_extra : Option String) :
    Except KeyErr CacheKey :=
  if (sources.isNone || !(SourceScope.valid (sources.getD .noSources) t))
      && fingerprint_extra.isNone then
    .error .invalidKeyRequest
  else
    let scope := sources.getD .noSources
    match scope.select t with
    | none => .error .attributeError
    | some srcs =>
        let srcs := pySorted (fun a b => leStr a.1 b.1) srcs
        let stream := sources_hash srcs ++ fingerprint_extra.getD ""
        .ok (key_for_hashed root t.id stream srcs)

/-! ### The stateful cache operations -/

/-- Normalize an absolute path given in components, as `os.path.normpath`
does inside `os.path.relpath`: drop `.` and empty components, resolve
`..` against the stack (at the root, `..` is dropped). -/
def normAbs (comps : List String) : List String :=
  comps.foldl
    (fun stack c =>
      if c = "." || c = "" then stack
      else if c = ".." then stack.dropLast
      else stack ++ [c])
    []

/-- Length of the common prefix of two component lists. -/
def commonLen : List String → List String → Nat
  | a :: as, b :: bs => if a = b then commonLen as bs + 1 else 0
  | _, _ => 0

/-- Model of `os.path.relpath(path, start)` for absolute paths, in
components: normalize both, strip the common prefix, and climb with `..`
for what remains of `start`.  An empty result is `os.curdir`. -/
def relpath (path start : List String) : List String :=
  let p := normAbs path
  let r := normAbs start
  let k := commonLen p r
  let res := List.replicate (r.length - k) ".." ++ p.drop k
  if res.isEmpty then ["."] else res

/-- An artifact passed to `update`: its absolute path in components and
what the filesystem holds there (a file's content, or a directory tree
that `shutil.copytree` would copy). -/
structure Artifact where
  path : List String
  node : ANode

/-- The relative destination `update` computes for one artifact:
`os.path.basename(artifact)` when no `artifact_root` is given, else
`os.path.relpath(artifact, artifact_root)`. -/
def relDest (artifact_root : Option (List String)) (a : Artifact) : List String :=
  match artifact_root with
  | none => [a.path.getLastD ""]
  | some r => relpath a.path r

/-- The check `rel_path.startswith('..')` on the joined rendering of the
relative destination: true exactly when its first component starts with
the two characters `..`. -/
def startsDotDot (rel : List String) : Bool :=
  List.isPrefixOf ['.', '.'] (rel.headD "").data

/-- Errors `update` can surface: the `AssertionError` of the traversal
check (the spec's `TraversalViolation`, carrying artifact and rel path as
the assert message does), or an `IOError` from a failed copy. -/
inductive UpdErr where
  | traversalViolation (artifact rel : List String) : UpdErr
  | ioError (errno : Nat) : UpdErr
deriving DecidableEq, Repr

/-- Write a directory's entries below `dest` (helper of `writeTree`). -/
def writeEntryList (dest : List String) : List Entry → FS → FS
  | [], s => s
  | .file n c :: rest, s => writeEntryList dest rest (s.setFile (dest ++ [n]) (.ok c))
  | .dir n sub :: rest, s => writeEntryList dest rest (writeEntryList (dest ++ [n]) sub s)

/-- Write one artifact at its destination: a file writes its content, a
directory tree writes every file under it (the effect of `shutil.copy` /
`shutil.copytree`). -/
def writeTree (dest : List String) : ANode → FS → FS
  | .file c, s => s.setFile dest (.ok c)
  | .dir es, s => writeEntryList dest es s

/-- The artifact-copying loop of `update`.  `failAt` injects an
environment failure: when the loop reaches the artifact with this index,
the copy raises `IOError` (modelling `shutil`/`os.makedirs` failing);
`none` runs in a failure-free environment.  Returns the state reached and
the error that aborted the loop, if any. -/
def copyLoop (entry : List String) (artifact_root : Option (List String))
    (failAt : Option Nat) : List Artifact → Nat → FS → FS × Option UpdErr
  | [], _, s => (s, none)
  | a :: rest, i, s =>
      if failAt = some i then (s, some (.ioError 5))
      else
        let rel := relDest artifact_root a
        if startsDotDot rel then (s, some (.traversalViolation a.path rel))
        else copyLoop entry artifact_root failAt rest (i + 1)
          (writeTree (entry ++ rel) a.node s)

/-- Model of `BuildCache._write_sha`: write the key's digest to the marker. -/
def write_sha (s : FS) (k : CacheKey) : FS :=
  s.setFile (sha_file k.filename) (.ok k.hash)

/-- Model of `BuildCache.update`: delete the entry directory, copy each
artifact under it (checking the traversal assert first), and only when
every artifact staged without error, write the digest marker.  On error
the state reached so far is returned together with the error. -/
def update (s : FS) (k : CacheKey) (arts : List Artifact)
    (artifact_root : Option (List String)) (failAt : Option Nat) :
    FS × Option UpdErr :=
  let s1 := (FS.rmtree s k.filename)
  match copyLoop k.filename artifact_root failAt arts 0 s1 with
  | (s2, some e) => (s2, some e)
  | (s2, none) => (write_sha s2 k, none)

/-- Model of `os.path.exists` on the filesystem map. -/
def existsAt (s : FS) (p : List String) : Bool :=
  match s.files p with
  | .ok _ => true
  | _ => false

/-- Model of `BuildCache.invalidate`: best-effort delete of the entry
directory, then unlink the marker file if it exists. -/
def invalidate (s : FS) (k : CacheKey) : FS :=
  let s1 := s.rmtree k.filename
  if existsAt s1 (sha_file k.filename) then
    s1.setFile (sha_file k.filename) .missing
  else s1

/-- Model of `BuildCache._read_sha`: read and strip the marker file; a
read failing with `ENOENT` yields `None` (the except branch swallows it
and the function falls through), any other errno propagates. -/
def read_sha (s : FS) (k : CacheKey) : Except Nat (Option String) :=
  match s.files (sha_file k.filename) with
  | .ok c => .ok (some (pyStrip c))
  | .missing => .ok none
  | .err n => if n = ENOENT then .ok none else .error n

/-- Model of `BuildCache.needs_update`: the stored digest differs from the
key's digest (`None` counts as different). -/
def needs_update (s : FS) (k : CacheKey) : Except Nat Bool :=
  (read_sha s k).map (fun c => decide (c ≠ some k.hash))

/-! ### Basic lemmas: strings and path prefixes -/

theorem string_eq_of_data (s t : String) (h : s.data = t.data) : s = t := by
  cases s; cases t; exact congrArg String.mk h

theorem string_append_left_cancel {a b c : String} (h : a ++ b = a ++ c) : b = c := by
  have hd := congrArg String.data h
  simp only [String.data_append] at hd
  exact string_eq_of_data _ _ (List.append_cancel_left hd)

theorem string_append_right_cancel {a b c : String} (h : a ++ c = b ++ c) : a = b := by
  have hd := congrArg String.data h
  simp only [String.data_append] at hd
  exact string_eq_of_data _ _ (List.append_cancel_right hd)

theorem string_ne_self_append_hash (x : String) : x ≠ x ++ ".hash" := by
  intro h
  have := congrArg String.length h
  simp only [String.length_append] at this
  have h5 : (".hash" : String).length = 5 := by decide
  omega

theorem isPref_refl (p : List String) : isPref p p = true := by
  induction p with
  | nil => rfl
  | cons a as ih => simp [isPref, ih]

theorem isPref_append (p r : List String) : isPref p (p ++ r) = true := by
  induction p with
  | nil => rfl
  | cons a as ih => simp [isPref, ih]

theorem isPref_of_append_isPref (a b q : List String)
    (h : isPref (a ++ b) q = true) : isPref a q = true := by
  induction a generalizing q with
  | nil => rfl
  | cons x xs ih =>
    cases q with
    | nil => simp [isPref] at h
    | cons y ys =>
      simp only [List.cons_append, isPref, Bool.and_eq_true] at h ⊢
      exact ⟨h.1, ih ys h.2⟩

theorem isPref_append_cancel (r p q : List String) :
    isPref (r ++ p) (r ++ q) = isPref p q := by
  induction r with
  | nil => rfl
  | cons x xs ih => simp [isPref, ih]

theorem isPref_comparable (a b q : List String)
    (ha : isPref a q = true) (hb : isPref b q = true) :
    isPref a b = true ∨ isPref b a = true := by
  induction q generalizing a b with
  | nil =>
    cases a with
    | nil => exact Or.inl rfl
    | cons x xs => simp [isPref] at ha
  | cons y ys ih =>
    cases a with
    | nil => exact Or.inl rfl
    | cons x xs =>
      cases b with
      | nil => exact Or.inr rfl
      | cons u us =>
        simp only [isPref, Bool.and_eq_true] at ha hb
        have hx : x = y := of_decide_eq_true ha.1
        have hu : u = y := of_decide_eq_true hb.1
        rcases ih xs us ha.2 hb.2 with h | h
        · exact Or.inl (by simp [isPref, hx, hu, h])
        · exact Or.inr (by simp [isPref, hx, hu, h])

theorem isPref_singleton (x y : String) (h : isPref [x] [y] = true) : x = y := by
  simpa [isPref] using h

theorem appendToLast_snoc (suf x : String) (l : List String) :
    appendToLast suf (l ++ [x]) = l ++ [x ++ suf] := by
  induction l with
  | nil => rfl
  | cons a as ih =>
    cases as with
    | nil => simp [appendToLast]
    | cons b bs => simpa [appendToLast] using ih

theorem not_isPref_sha_file (f : List String) (hf : f ≠ []) :
    isPref f (sha_file f) = false := by
  induction f with
  | nil => exact absurd rfl hf
  | cons x xs ih =>
    cases xs with
    | nil =>
      simp only [sha_file, appendToLast, isPref, Bool.and_eq_false_iff]
      left
      simp [string_ne_self_append_hash x]
    | cons y ys =>
      have := ih (by simp)
      simp only [sha_file, appendToLast] at this ⊢
      simp [isPref, this]

/-! ### Frame lemmas for the filesystem operations -/

theorem rmtree_files (s : FS) (p q : List String) :
    (s.rmtree p).files q = if isPref p q then .missing else s.files q := rfl

theorem setFile_files (s : FS) (p q : List String) (v : FileRes) :
    (s.setFile p v).files q = if q = p then v else s.files q := rfl

theorem writeEntryList_frame : (es : List Entry) → (dest : List String) → (s : FS) →
    (q : List String) → isPref dest q = false →
    (writeEntryList dest es s).files q = s.files q
  | [], _, _, _, _ => by simp [writeEntryList]
  | .file n c :: rest, dest, s, q, h => by
      rw [writeEntryList, writeEntryList_frame rest dest _ q h, setFile_files, if_neg]
      intro hq
      rw [hq, isPref_append] at h
      cases h
  | .dir n sub :: rest, dest, s, q, h => by
      rw [writeEntryList, writeEntryList_frame rest dest _ q h]
      apply writeEntryList_frame sub
      cases hdq : isPref (dest ++ [n]) q with
      | false => rfl
      | true => rw [isPref_of_append_isPref _ _ _ hdq] at h; cases h
termination_by es _ _ _ _ => sizeOf es

theorem writeTree_frame (node : ANode) (dest : List String) (s : FS)
    (q : List String) (h : isPref dest q = false) :
    (writeTree dest node s).files q = s.files q := by
  cases node with
  | file c =>
    rw [writeTree, setFile_files, if_neg]
    intro hq
    rw [hq, isPref_refl] at h
    cases h
  | dir es => exact writeEntryList_frame es dest s q h

theorem copyLoop_frame (arts : List Artifact) (entry : List String)
    (aroot : Option (List String)) (fa : Option Nat) (i : Nat) (s : FS)
    (q : List String) (h : isPref entry q = false) :
    ((copyLoop entry aroot fa arts i s).1).files q = s.files q := by
  induction arts generalizing i s with
  | nil => rfl
  | cons a rest ih =>
    rw [copyLoop]
    by_cases hfa : fa = some i
    · simp [hfa]
    · simp only [hfa, if_false]
      by_cases hdd : startsDotDot (relDest aroot a) = true
      · simp [hdd]
      · simp only [Bool.not_eq_true] at hdd
        simp only [hdd, Bool.false_eq_true, if_false]
        rw [ih]
        apply writeTree_frame
        cases hpq : isPref (entry ++ relDest aroot a) q with
        | false => rfl
        | true => rw [isPref_of_append_isPref _ _ _ hpq] at h; cases h

theorem copyLoop_snd_indep (arts : List Artifact) (entry : List String)
    (aroot : Option (List String)) (fa : Option Nat) (i : Nat) (s s' : FS) :
    (copyLoop entry aroot fa arts i s).2 = (copyLoop entry aroot fa arts i s').2 := by
  induction arts generalizing i s s' with
  | nil => rfl
  | cons a rest ih =>
    rw [copyLoop, copyLoop]
    by_cases hfa : fa = some i
    · simp [hfa]
    · simp only [hfa, if_false]
      by_cases hdd : startsDotDot (relDest aroot a) = true
      · simp [hdd]
      · simp only [Bool.not_eq_true] at hdd
        simp only [hdd, Bool.false_eq_true, if_false]
        exact ih _ _ _

theorem update_frame (s : FS) (k : CacheKey) (arts : List Artifact)
    (aroot : Option (List String)) (fa : Option Nat) (q : List String)
    (h1 : isPref k.filename q = false) (h2 : q ≠ sha_file k.filename) :
    ((update s k arts aroot fa).1).files q = s.files q := by
  rw [update]
  cases hc : copyLoop k.filename aroot fa arts 0 (s.rmtree k.filename) with
  | mk s2 e =>
    have hcq : s2.files q = s.files q := by
      have := copyLoop_frame arts k.filename aroot fa 0 (s.rmtree k.filename) q h1
      rw [hc] at this
      rw [this, rmtree_files, if_neg]
      simp [h1]
    cases e with
    | none => simpa [write_sha, setFile_files, h2] using hcq
    | some e => simpa using hcq

theorem update_marker_of_err (s : FS) (k : CacheKey) (arts : List Artifact)
    (aroot : Option (List String)) (fa : Option Nat) (e : UpdErr)
    (hf : k.filename ≠ [])
    (he : (update s k arts aroot fa).2 = some e) :
    ((update s k arts aroot fa).1).files (sha_file k.filename) =
      s.files (sha_file k.filename) := by
  have hm : isPref k.filename (sha_file k.filename) = false := not_isPref_sha_file _ hf
  rw [update] at he ⊢
  cases hc : copyLoop k.filename aroot fa arts 0 (s.rmtree k.filename) with
  | mk s2 e2 =>
    rw [hc] at he
    cases e2 with
    | none => simp at he
    | some e2 =>
      have := copyLoop_frame arts k.filename aroot fa 0 (s.rmtree k.filename)
        (sha_file k.filename) hm
      rw [hc] at this
      simpa [this, rmtree_files, hm]

theorem invalidate_frame (s : FS) (k : CacheKey) (q : List String)
    (h1 : isPref k.filename q = false) (h2 : q ≠ sha_file k.filename) :
    (invalidate s k).files q = s.files q := by
  rw [invalidate]
  by_cases he : existsAt (s.rmtree k.filename) (sha_file k.filename) = true
  · simp [he, setFile_files, h2, rmtree_files, h1]
  · simp only [Bool.not_eq_true] at he
    simp [he, rmtree_files, h1]

/-! ### Marker and staleness lemmas -/

theorem needs_update_of_marker (s : FS) (k : CacheKey) (m : String)
    (h : s.files (sha_file k.filename) = .ok m) :
    needs_update s k = .ok (decide (¬ pyStrip m = k.hash)) := by
  simp [needs_update, read_sha, h, Except.map]

theorem needs_update_of_missing (s : FS) (k : CacheKey)
    (h : s.files (sha_file k.filename) = .missing) :
    needs_update s k = .ok true := by
  simp [needs_update, read_sha, h, Except.map]

theorem needs_update_congr (s s' : FS) (k : CacheKey)
    (h : s'.files (sha_file k.filename) = s.files (sha_file k.filename)) :
    needs_update s' k = needs_update s k := by
  rw [needs_update, needs_update, read_sha, read_sha, h]

/-! ### Hex digests are whitespace-free and injective -/

theorem hexDigitChar_mem_nonspace (m : Nat) (hm : m < 16) :
    pyIsSpace (hexDigitChar m) = false := by
  have : ∀ i : Fin 16, pyIsSpace (hexDigitChar i.val) = false := by decide
  exact this ⟨m, hm⟩

theorem hexDigitChar_inj (m n : Nat) (hm : m < 16) (hn : n < 16)
    (h : hexDigitChar m = hexDigitChar n) : m = n := by
  have : ∀ i j : Fin 16, hexDigitChar i.val = hexDigitChar j.val → i = j := by decide
  have := this ⟨m, hm⟩ ⟨n, hn⟩ h
  exact congrArg Fin.val this

theorem hexChars_length (k n : Nat) : (hexChars k n).length = k := by
  induction k generalizing n with
  | zero => rfl
  | succ k ih => simp [hexChars, ih]

theorem hexChars_mem (k n : Nat) (c : Char) (h : c ∈ hexChars k n) :
    ∃ m, m < 16 ∧ c = hexDigitChar m := by
  induction k generalizing n with
  | zero => simp [hexChars] at h
  | succ k ih =>
    simp only [hexChars, List.mem_cons] at h
    rcases h with h | h
    · exact ⟨n % 16, Nat.mod_lt _ (by omega), h⟩
    · exact ih _ h

theorem hexChars_inj (k m n : Nat) (hm : m < 16 ^ k) (hn : n < 16 ^ k)
    (h : hexChars k m = hexChars k n) : m = n := by
  induction k generalizing m n with
  | zero => omega
  | succ k ih =>
    simp only [hexChars, List.cons.injEq] at h
    have h1 : m % 16 = n % 16 :=
      hexDigitChar_inj _ _ (Nat.mod_lt _ (by omega)) (Nat.mod_lt _ (by omega)) h.1
    have hm' : m / 16 < 16 ^ k := by
      rw [Nat.div_lt_iff_lt_mul (by omega)]
      calc m < 16 ^ (k + 1) := hm
        _ = 16 ^ k * 16 := by ring
    have hn' : n / 16 < 16 ^ k := by
      rw [Nat.div_lt_iff_lt_mul (by omega)]
      calc n < 16 ^ (k + 1) := hn
        _ = 16 ^ k * 16 := by ring
    have h2 := ih _ _ hm' hn' h.2
    omega

theorem char_toNat_lt (c : Char) : c.toNat < 16 ^ 8 := by
  have := c.val.toNat_lt
  simpa [Char.toNat] using this

theorem flatten_hexChars_inj : (a b : List Char) →
    (a.map (fun c => hexChars 8 c.toNat)).flatten =
      (b.map (fun c => hexChars 8 c.toNat)).flatten → a = b
  | [], [], _ => rfl
  | [], c :: cs, h => by
      have := congrArg List.length h
      simp [hexChars_length] at this
      have : ((cs.map (fun c => hexChars 8 c.toNat)).flatten).length + 8 = 0 := by omega
      omega
  | c :: cs, [], h => by
      have := congrArg List.length h
      simp [hexChars_length] at this
  | c :: cs, d :: ds, h => by
      simp only [List.map_cons, List.flatten_cons] at h
      have hlen : (hexChars 8 c.toNat).length = (hexChars 8 d.toNat).length := by
        simp [hexChars_length]
      have hsplit := List.append_inj h hlen
      have hc : c = d := by
        have := hexChars_inj 8 c.toNat d.toNat (char_toNat_lt c) (char_toNat_lt d) hsplit.1
        exact Char.eq_of_val_eq (UInt32.toNat.inj this)
      have := flatten_hexChars_inj cs ds hsplit.2
      rw [hc, this]

theorem hexDigest_inj (a b : String) (h : hexDigest a = hexDigest b) : a = b := by
  have hd := congrArg String.data h
  simp only [hexDigest] at hd
  exact string_eq_of_data _ _ (flatten_hexChars_inj _ _ hd)

theorem dropWhile_eq_self_of_none {p : Char → Bool} (l : List Char)
    (h : ∀ c ∈ l, p c = false) : l.dropWhile p = l := by
  cases l with
  | nil => rfl
  | cons c cs => simp [List.dropWhile, h c (by simp)]

theorem pyStrip_eq_self (s : String) (h : ∀ c ∈ s.data, pyIsSpace c = false) :
    pyStrip s = s := by
  have h1 : s.data.dropWhile pyIsSpace = s.data := dropWhile_eq_self_of_none _ h
  have h2 : s.data.reverse.dropWhile pyIsSpace = s.data.reverse :=
    dropWhile_eq_self_of_none _ (fun c hc => h c (List.mem_reverse.mp hc))
  rw [pyStrip, h1, h2, List.reverse_reverse]

theorem pyStrip_hexDigest (s : String) : pyStrip (hexDigest s) = hexDigest s := by
  apply pyStrip_eq_self
  intro c hc
  simp only [hexDigest, List.mem_flatten, List.mem_map] at hc
  obtain ⟨l, ⟨d, _, hdl⟩, hcl⟩ := hc
  obtain ⟨m, hm, hcm⟩ := hexChars_mem 8 d.toNat c (hdl ▸ hcl)
  rw [hcm]
  exact hexDigitChar_mem_nonspace m hm

/-! ### Sorting lemmas -/

theorem insertLe_perm (le : α → α → Bool) (x : α) (l : List α) :
    (insertLe le x l).Perm (x :: l) := by
  induction l with
  | nil => exact List.Perm.refl _
  | cons y ys ih =>
    rw [insertLe]
    by_cases h : le x y = true
    · simp [h]
    · simp only [Bool.not_eq_true] at h
      simp only [h, Bool.false_eq_true, if_false]
      exact (ih.cons y).trans (List.Perm.swap x y ys)

theorem pySorted_perm (le : α → α → Bool) (l : List α) :
    (pySorted le l).Perm l := by
  induction l with
  | nil => exact List.Perm.refl _
  | cons x xs ih => exact (insertLe_perm le x _).trans (ih.cons x)

theorem insertLe_map (le : β → β → Bool) (f : α → β) (x : α) (l : List α) :
    insertLe le (f x) (l.map f) = (insertLe (fun a b => le (f a) (f b)) x l).map f := by
  induction l with
  | nil => rfl
  | cons y ys ih =>
    rw [List.map_cons, insertLe, insertLe]
    by_cases h : le (f x) (f y) = true
    · simp [h]
    · simp only [Bool.not_eq_true] at h
      simp [h, ih]

theorem pySorted_map (le : β → β → Bool) (f : α → β) (l : List α) :
    pySorted le (l.map f) = (pySorted (fun a b => le (f a) (f b)) l).map f := by
  induction l with
  | nil => rfl
  | cons x xs ih => rw [List.map_cons, pySorted, pySorted, ih, insertLe_map]

theorem insertLe_congr (le1 le2 : α → α → Bool) (x : α) (l : List α)
    (h : ∀ b ∈ l, le1 x b = le2 x b) :
    insertLe le1 x l = insertLe le2 x l := by
  induction l with
  | nil => rfl
  | cons y ys ih =>
    rw [insertLe, insertLe, h y (by simp)]
    by_cases h2 : le2 x y = true
    · simp [h2]
    · simp only [Bool.not_eq_true] at h2
      simp only [h2, Bool.false_eq_true, if_false]
      rw [ih (fun b hb => h b (by simp [hb]))]

theorem pySorted_congr (le1 le2 : α → α → Bool) (l : List α)
    (h : ∀ a ∈ l, ∀ b ∈ l, le1 a b = le2 a b) :
    pySorted le1 l = pySorted le2 l := by
  induction l with
  | nil => rfl
  | cons x xs ih =>
    rw [pySorted, pySorted, ih (fun a ha b hb => h a (by simp [ha]) b (by simp [hb]))]
    apply insertLe_congr
    intro b hb
    have hbx : b ∈ xs := ((pySorted_perm le2 xs).mem_iff).mp hb
    exact h x (by simp) b (by simp [hbx])

/-! ### Concatenation of stream pieces -/

/-- Concatenation of a list of strings, the shape `_sources_hash`'s
accumulator takes. -/
def strJoin (l : List String) : String := l.foldl (· ++ ·) ""

theorem foldl_append_eq (l : List String) (a : String) :
    l.foldl (· ++ ·) a = a ++ strJoin l := by
  induction l generalizing a with
  | nil => simp [strJoin]
  | cons x xs ih =>
    have hr : strJoin (x :: xs) = x ++ strJoin xs := by
      rw [strJoin, List.foldl_cons, ih, String.empty_append]
    rw [List.foldl_cons, ih, hr, String.append_assoc]

theorem strJoin_cons (x : String) (l : List String) :
    strJoin (x :: l) = x ++ strJoin l := by
  rw [strJoin, List.foldl_cons, foldl_append_eq, String.empty_append]

theorem strJoin_append (a b : List String) :
    strJoin (a ++ b) = strJoin a ++ strJoin b := by
  induction a with
  | nil =>
    simp only [List.nil_append]
    exact (string_eq_of_data _ _ (by simp [String.data_append, strJoin])).symm
  | cons x xs ih => rw [List.cons_append, strJoin_cons, strJoin_cons, ih, String.append_assoc]

theorem strJoin_flatten (ll : List (List String)) :
    strJoin ll.flatten = strJoin (ll.map strJoin) := by
  induction ll with
  | nil => rfl
  | cons l ls ih => rw [List.flatten_cons, strJoin_append, List.map_cons, strJoin_cons, ih]

theorem strJoin_split (A B : List String) (x : String) :
    strJoin (A ++ x :: B) = strJoin A ++ (x ++ strJoin B) := by
  rw [strJoin_append, strJoin_cons]

/-! ### Decomposition of the hash stream by input path -/

/-- The stream segment one input path contributes to `_sources_hash`. -/
def elemStream (pn : String × ANode) : String :=
  strJoin ((walkOne pn.1 pn.2).map (fun rc => rc.1 ++ rc.2))

theorem strJoin_map_flatten (g : α → String) (M : List (List α)) :
    strJoin (M.flatten.map g) = strJoin (M.map (fun x => strJoin (x.map g))) := by
  induction M with
  | nil => rfl
  | cons m ms ih =>
    rw [List.flatten_cons, List.map_append, strJoin_append, List.map_cons,
      strJoin_cons, ih]

theorem sources_hash_decomp (l : List (String × ANode)) :
    sources_hash l =
      strJoin ((pySorted (fun a b => leStr a.1 b.1) l).map elemStream) := by
  have h1 : sources_hash l =
      strJoin ((((pySorted (fun a b => leStr a.1 b.1) l).map
        (fun pn => walkOne pn.1 pn.2)).flatten).map (fun rc => rc.1 ++ rc.2)) := rfl
  rw [h1, strJoin_map_flatten, List.map_map]
  rfl

/-! ### Mutating one source file changes the stream -/

theorem mem_zip_self (l : List α) (ab : α × α) (h : ab ∈ l.zip l) : ab.1 = ab.2 := by
  induction l with
  | nil => simp at h
  | cons x xs ih =>
    rw [List.zip_cons_cons, List.mem_cons] at h
    rcases h with h | h
    · rw [h]
    · exact ih h

theorem zip_set_mem (l : List α) (i : Nat) (x x' : α) (hx : l[i]? = some x) :
    ∀ ab ∈ l.zip (l.set i x'), ab.1 = ab.2 ∨ ab = (x, x') := by
  induction l generalizing i with
  | nil => simp at hx
  | cons a as ih =>
    cases i with
    | zero =>
      simp only [List.getElem?_cons_zero, Option.some.injEq] at hx
      intro ab hab
      rw [List.set_cons_zero, List.zip_cons_cons, List.mem_cons] at hab
      rcases hab with hab | hab
      · right; rw [hab, hx]
      · left; exact mem_zip_self as ab hab
    | succ i =>
      intro ab hab
      rw [List.set_cons_succ, List.zip_cons_cons, List.mem_cons] at hab
      rcases hab with hab | hab
      · left; rw [hab]
      · exact ih i (by simpa using hx) ab hab

theorem countP_zip_self (p : α × α → Bool) (hself : ∀ a, p (a, a) = false)
    (l : List α) : (l.zip l).countP p = 0 := by
  induction l with
  | nil => rfl
  | cons x xs ih =>
    rw [List.zip_cons_cons, List.countP_cons, ih, hself]
    simp

theorem countP_zip_set (p : α × α → Bool) (l : List α) (i : Nat) (x x' : α)
    (hx : l[i]? = some x)
    (hself : ∀ a, p (a, a) = false) (hxx : p (x, x') = true) :
    (l.zip (l.set i x')).countP p = 1 := by
  induction l generalizing i with
  | nil => simp at hx
  | cons a as ih =>
    cases i with
    | zero =>
      simp only [List.getElem?_cons_zero, Option.some.injEq] at hx
      rw [List.set_cons_zero, List.zip_cons_cons, List.countP_cons,
        countP_zip_self p hself, hx, hxx]
      simp
    | succ i =>
      rw [List.set_cons_succ, List.zip_cons_cons, List.countP_cons,
        ih i (by simpa using hx), hself]
      simp

theorem countP_one_split (p : α → Bool) (l : List α) (h : l.countP p = 1) :
    ∃ A x B, l = A ++ x :: B ∧ p x = true ∧
      (∀ y ∈ A, p y = false) ∧ (∀ y ∈ B, p y = false) := by
  induction l with
  | nil => simp [List.countP_nil] at h
  | cons a rest ih =>
    rw [List.countP_cons] at h
    by_cases hpa : p a = true
    · have h0 : rest.countP p = 0 := by rw [hpa] at h; simpa using h
      refine ⟨[], a, rest, by simp, hpa, by simp, ?_⟩
      intro y hy
      have := List.countP_eq_zero.mp h0 y hy
      simpa using this
    · simp only [Bool.not_eq_true] at hpa
      rw [hpa] at h
      simp only [Bool.false_eq_true, if_false, Nat.add_zero] at h
      obtain ⟨A, x, B, hsplit, hx, hA, hB⟩ := ih h
      exact ⟨a :: A, x, B, by rw [hsplit]; rfl, hx,
        fun y hy => by
          rcases List.mem_cons.mp hy with hy | hy
          · rw [hy]; exact hpa
          · exact hA y hy,
        hB⟩

/-- Content of a file node, `none` on a directory (used to recognize the
mutated pair without deciding equality of whole trees). -/
def contentOf : ANode → Option String
  | .file c => some c
  | .dir _ => none

/-- Predicate picking out a pair whose two sides hold files with
different contents. -/
def badPair (ab : (String × ANode) × (String × ANode)) : Bool :=
  decide (contentOf ab.1.2 ≠ contentOf ab.2.2)

theorem sources_hash_set_ne (l : List (String × ANode)) (i : Nat)
    (p : String) (c c' : String)
    (hx : l[i]? = some (p, ANode.file c)) (hcc : c ≠ c') :
    sources_hash l ≠ sources_hash (l.set i (p, ANode.file c')) := by
  set x : String × ANode := (p, ANode.file c) with hxdef
  set x' : String × ANode := (p, ANode.file c') with hxdef'
  set L := l.zip (l.set i x') with hL
  have hlen : (l.set i x').length = l.length := List.length_set l i x'
  have hfst : L.map Prod.fst = l := List.map_fst_zip _ _ (by rw [hlen])
  have hsnd : L.map Prod.snd = l.set i x' := List.map_snd_zip _ _ (by rw [hlen])
  have hmem := zip_set_mem l i x x' hx
  -- the two sorted lists are the two projections of one sorted pair list
  have hs1 : pySorted (fun a b => leStr a.1 b.1) l =
      (pySorted (fun a b => leStr a.1.1 b.1.1) L).map Prod.fst := by
    rw [← hfst, pySorted_map]
  have hcongr : pySorted (fun (a b : (String × ANode) × (String × ANode)) =>
      leStr a.2.1 b.2.1) L = pySorted (fun a b => leStr a.1.1 b.1.1) L := by
    apply pySorted_congr
    intro a ha b hb
    have hpa : a.1.1 = a.2.1 := by
      rcases hmem a ha with h | h
      · rw [h]
      · rw [h]
    have hpb : b.1.1 = b.2.1 := by
      rcases hmem b hb with h | h
      · rw [h]
      · rw [h]
    rw [hpa, hpb]
  have hs2 : pySorted (fun a b => leStr a.1 b.1) (l.set i x') =
      (pySorted (fun a b => leStr a.1.1 b.1.1) L).map Prod.snd := by
    rw [← hsnd, pySorted_map, hcongr]
  set S := pySorted (fun (a b : (String × ANode) × (String × ANode)) =>
    leStr a.1.1 b.1.1) L with hS
  -- exactly one pair of S is the mutated one
  have hcount : S.countP badPair = 1 := by
    have hperm : S.Perm L := pySorted_perm _ L
    rw [hperm.countP_eq]
    apply countP_zip_set badPair l i x x' hx
    · intro a; simp [badPair]
    · simp [badPair, hxdef, hxdef', contentOf, hcc]
  obtain ⟨A, ab, B, hsplit, hbad, hA, hB⟩ := countP_one_split badPair S hcount
  have hmemS : ∀ y ∈ S, y.1 = y.2 ∨ y = (x, x') := by
    intro y hy
    exact hmem y ((pySorted_perm _ L).mem_iff.mp hy)
  have hab : ab = (x, x') := by
    rcases hmemS ab (by rw [hsplit]; simp) with h | h
    · exfalso
      rw [badPair] at hbad
      rw [h] at hbad
      simp at hbad
    · exact h
  have hgoodA : ∀ y ∈ A, y.1 = y.2 := by
    intro y hy
    rcases hmemS y (by rw [hsplit]; simp [hy]) with h | h
    · exact h
    · exfalso
      have := hA y hy
      rw [h, badPair] at this
      simp [hxdef, hxdef', contentOf, hcc] at this
  have hgoodB : ∀ y ∈ B, y.1 = y.2 := by
    intro y hy
    rcases hmemS y (by rw [hsplit]; simp [hy]) with h | h
    · exact h
    · exfalso
      have := hB y hy
      rw [h, badPair] at this
      simp [hxdef, hxdef', contentOf, hcc] at this
  -- decompose both streams around the mutated element
  intro hstream
  rw [sources_hash_decomp, sources_hash_decomp, hs1, hs2, List.map_map,
    List.map_map, hsplit, List.map_append, List.map_append, List.map_cons,
    List.map_cons, strJoin_split, strJoin_split] at hstream
  have hAeq : A.map (elemStream ∘ Prod.fst) = A.map (elemStream ∘ Prod.snd) :=
    List.map_congr_left (fun y hy => by
      simp only [Function.comp_apply]
      rw [hgoodA y hy])
  have hBeq : B.map (elemStream ∘ Prod.fst) = B.map (elemStream ∘ Prod.snd) :=
    List.map_congr_left (fun y hy => by
      simp only [Function.comp_apply]
      rw [hgoodB y hy])
  rw [hAeq, hBeq, hab] at hstream
  have hmid := string_append_left_cancel hstream
  have hmid2 := string_append_right_cancel hmid
  -- the two segment streams are basename ++ content
  have hesx : elemStream (x, x').1 = basenameOf p ++ c := by
    rw [hxdef]
    rw [show elemStream (p, ANode.file c) =
      strJoin [basenameOf p ++ c] from rfl]
    rw [strJoin_cons]
    exact string_eq_of_data _ _ (by simp [String.data_append, strJoin])
  have hesx' : elemStream (x, x').2 = basenameOf p ++ c' := by
    rw [hxdef']
    rw [show elemStream (p, ANode.file c') =
      strJoin [basenameOf p ++ c'] from rfl]
    rw [strJoin_cons]
    exact string_eq_of_data _ _ (by simp [String.data_append, strJoin])
  simp only [Function.comp_apply] at hmid2
  rw [hesx, hesx'] at hmid2
  exact hcc (string_append_left_cancel hmid2)

/-! ### What `update` writes under the entry depends only on its arguments -/

theorem isPref_extend (a b r : List String) (h : isPref a b = true) :
    isPref a (b ++ r) = true := by
  induction a generalizing b with
  | nil => rfl
  | cons x xs ih =>
    cases b with
    | nil => simp [isPref] at h
    | cons y ys =>
      simp only [List.cons_append, isPref, Bool.and_eq_true] at h ⊢
      exact ⟨h.1, ih ys h.2⟩

theorem writeEntryList_congr : (es : List Entry) → (entry dest : List String) →
    (s s' : FS) → isPref entry dest = true →
    (∀ q, isPref entry q = true → s.files q = s'.files q) →
    ∀ q, isPref entry q = true →
      (writeEntryList dest es s).files q = (writeEntryList dest es s').files q
  | [], _, _, _, _, _, h, q, hq => by
      simpa [writeEntryList] using h q hq
  | .file n c :: rest, entry, dest, s, s', hdest, h, q, hq => by
      rw [writeEntryList, writeEntryList]
      refine writeEntryList_congr rest entry dest _ _ hdest ?_ q hq
      intro r hr
      rw [setFile_files, setFile_files]
      by_cases hrd : r = dest ++ [n]
      · simp [hrd]
      · simp [hrd, h r hr]
  | .dir n sub :: rest, entry, dest, s, s', hdest, h, q, hq => by
      rw [writeEntryList, writeEntryList]
      refine writeEntryList_congr rest entry dest _ _ hdest ?_ q hq
      intro r hr
      exact writeEntryList_congr sub entry (dest ++ [n]) s s'
        (isPref_extend _ _ _ hdest) h r hr
termination_by es _ _ _ _ _ _ _ _ => sizeOf es

theorem writeTree_congr (node : ANode) (entry dest : List String) (s s' : FS)
    (hdest : isPref entry dest = true)
    (h : ∀ q, isPref entry q = true → s.files q = s'.files q) :
    ∀ q, isPref entry q = true →
      (writeTree dest node s).files q = (writeTree dest node s').files q := by
  intro q hq
  cases node with
  | file c =>
    rw [writeTree, writeTree, setFile_files, setFile_files]
    by_cases hrd : q = dest
    · simp [hrd]
    · simp [hrd, h q hq]
  | dir es => exact writeEntryList_congr es entry dest s s' hdest h q hq

theorem copyLoop_congr (arts : List Artifact) (entry : List String)
    (aroot : Option (List String)) (fa : Option Nat) (i : Nat) (s s' : FS)
    (h : ∀ q, isPref entry q = true → s.files q = s'.files q) :
    ∀ q, isPref entry q = true →
      ((copyLoop entry aroot fa arts i s).1).files q =
        ((copyLoop entry aroot fa arts i s').1).files q := by
  induction arts generalizing i s s' with
  | nil => exact h
  | cons a rest ih =>
    intro q hq
    rw [copyLoop, copyLoop]
    by_cases hfa : fa = some i
    · simpa [hfa] using h q hq
    · simp only [hfa, if_false]
      by_cases hdd : startsDotDot (relDest aroot a) = true
      · simpa [hdd] using h q hq
      · simp only [Bool.not_eq_true] at hdd
        simp only [hdd, Bool.false_eq_true, if_false]
        refine ih _ _ _ ?_ q hq
        intro r hr
        exact writeTree_congr a.node entry (entry ++ relDest aroot a) s s'
          (isPref_append _ _) h r hr

/-! ### Remaining auxiliary lemmas for the claim theorems -/

theorem write_sha_marker (s : FS) (k : CacheKey) :
    (write_sha s k).files (sha_file k.filename) = .ok k.hash := by
  simp [write_sha, setFile_files]

theorem startsDotDot_of_head (rel : List String) (h : rel.headD "" = "..") :
    startsDotDot rel = true := by
  rw [startsDotDot, h]
  decide

theorem copyLoop_err_of_escape (arts : List Artifact) (entry : List String)
    (aroot : Option (List String)) (i : Nat) (s : FS)
    (hesc : ∃ a ∈ arts, (relDest aroot a).headD "" = "..") :
    ∃ ar r, (copyLoop entry aroot none arts i s).2 =
      some (.traversalViolation ar r) := by
  induction arts generalizing i s with
  | nil => simp at hesc
  | cons a rest ih =>
    rw [copyLoop]
    simp only [reduceCtorEq, if_false]
    by_cases hdd : startsDotDot (relDest aroot a) = true
    · exact ⟨a.path, relDest aroot a, by simp [hdd]⟩
    · simp only [Bool.not_eq_true] at hdd
      simp only [hdd, Bool.false_eq_true, if_false]
      obtain ⟨a', ha', hh⟩ := hesc
      rcases List.mem_cons.mp ha' with h | h
      · exfalso
        rw [h] at hh
        rw [startsDotDot_of_head _ hh] at hdd
        cases hdd
      · exact ih _ _ ⟨a', h, hh⟩

theorem isPref_snoc_ne (root : List String) (x y : String) (hxy : x ≠ y) :
    isPref (root ++ [x]) (root ++ [y]) = false := by
  rw [isPref_append_cancel]
  simp [isPref, hxy]

/-! ## The claims -/

/-- C1: the claim says the digest is independent of the OS
directory-iteration order because, in particular, the filenames within
each walked directory are visited in sorted order.  The code sorts the
triples of `os.walk` but not the `filenames` list inside each triple, so
the digest depends on the listing order: for the directory `/d` holding
the files `a` (content "1") and `b` (content "2"), the two possible OS
listing orders of the same file set feed the streams `a1b2` and `b2a1`
to the accumulator and yield different digests. -/
theorem c1_digest_depends_on_listing_order :
    filesOf [Entry.file "b" "2", Entry.file "a" "1"] =
      (filesOf [Entry.file "a" "1", Entry.file "b" "2"]).reverse ∧
    hexDigest (sources_hash [("/d", ANode.dir [Entry.file "a" "1", Entry.file "b" "2"])]) ≠
      hexDigest (sources_hash [("/d", ANode.dir [Entry.file "b" "2", Entry.file "a" "1"])]) := by
  constructor
  · rfl
  · have h1 : sources_hash [("/d", ANode.dir [Entry.file "a" "1", Entry.file "b" "2"])]
        = "a1b2" := by
      simp [sources_hash, walk_paths, walkOne, walkDir, walkSubs, filesOf, joinComps,
        pySorted, insertLe, leStr, lexLe, strJoin]
    have h2 : sources_hash [("/d", ANode.dir [Entry.file "b" "2", Entry.file "a" "1"])]
        = "b2a1" := by
      simp [sources_hash, walk_paths, walkOne, walkDir, walkSubs, filesOf, joinComps,
        pySorted, insertLe, leStr, lexLe, strJoin]
    rw [h1, h2]
    decide

/-- C2: after a successful `update(key, artifacts)`, `needs_update(key)`
returns false; and after one listed source file is mutated (its content
changed) and a new key is computed for the same id, `needs_update` on the
new key returns true.  The digest is read as the SHA1 update stream
rendered in hex, so "different content gives a different digest" holds up
to SHA1 collisions. -/
theorem c2_round_trip (s : FS) (root id : List String)
    (l : List (String × ANode)) (arts : List Artifact)
    (aroot : Option (List String)) (i : Nat) (p c c' : String)
    (hx : l[i]? = some (p, ANode.file c)) (hcc : c ≠ c')
    (hupd : (update s (key_for root id l) arts aroot none).2 = none) :
    needs_update (update s (key_for root id l) arts aroot none).1
      (key_for root id l) = .ok false ∧
    needs_update (update s (key_for root id l) arts aroot none).1
      (key_for root id (l.set i (p, ANode.file c'))) = .ok true := by
  set k := key_for root id l with hk
  set k' := key_for root id (l.set i (p, ANode.file c')) with hk'
  have hfn : k'.filename = k.filename := rfl
  have hmarker : ((update s k arts aroot none).1).files (sha_file k.filename) =
      .ok k.hash := by
    rw [update] at hupd ⊢
    cases hc : copyLoop k.filename aroot none arts 0 (s.rmtree k.filename) with
    | mk t1 e1 =>
      rw [hc] at hupd
      cases e1 with
      | some e => simp at hupd
      | none => exact write_sha_marker t1 k
  have hhash : k.hash = hexDigest (sources_hash l) := rfl
  have hhash' : k'.hash = hexDigest (sources_hash (l.set i (p, ANode.file c'))) := rfl
  constructor
  · rw [needs_update_of_marker _ _ _ hmarker, hhash, pyStrip_hexDigest]
    simp
  · rw [show sha_file k.filename = sha_file k'.filename from rfl] at hmarker
    rw [needs_update_of_marker _ _ _ hmarker, hhash, pyStrip_hexDigest]
    have hne : hexDigest (sources_hash l) ≠ k'.hash := by
      rw [hhash']
      intro h
      exact sources_hash_set_ne l i p c c' hx hcc (hexDigest_inj _ _ h)
    simp [hne]

/-- Witness for C2 at a one-file source list whose content is mutated
from "x" to "y". -/
theorem c2_round_trip_witness :
    needs_update (update ⟨fun _ => .missing⟩
        (key_for ["r"] ["i"] [("/d/f", ANode.file "x")]) [] none none).1
      (key_for ["r"] ["i"] [("/d/f", ANode.file "x")]) = .ok false ∧
    needs_update (update ⟨fun _ => .missing⟩
        (key_for ["r"] ["i"] [("/d/f", ANode.file "x")]) [] none none).1
      (key_for ["r"] ["i"] ([("/d/f", ANode.file "x")].set 0
        ("/d/f", ANode.file "y"))) = .ok true :=
  c2_round_trip ⟨fun _ => .missing⟩ ["r"] ["i"] [("/d/f", ANode.file "x")] [] none
    0 "/d/f" "x" "y" rfl (by decide) rfl

/-- C3 counterexample: the claim says that after a failed `update` a
subsequent `needs_update` on that key returns true.  If a marker holding
the key's digest already exists (the key was fresh from an earlier
successful `update`) and a re-`update` fails while copying, the stale
marker survives and `needs_update` still returns false on a torn entry. -/
theorem c3_counterexample :
    (update ⟨fun q => if q = ["c", "0", "x.hash"] then .ok "d0" else .missing⟩
        ⟨[], "d0", ["c", "0", "x"]⟩ [⟨["a", "out"], .file "z"⟩] none (some 0)).2 =
      some (.ioError 5) ∧
    needs_update
      (update ⟨fun q => if q = ["c", "0", "x.hash"] then .ok "d0" else .missing⟩
        ⟨[], "d0", ["c", "0", "x"]⟩ [⟨["a", "out"], .file "z"⟩] none (some 0)).1
      ⟨[], "d0", ["c", "0", "x"]⟩ = .ok false :=
  ⟨rfl, rfl⟩

/-- C3 (amended): `update` writes the digest marker only as its final
step, so if it fails at any point (injected copy failure or the traversal
check), the marker for that key is untouched in that call; hence a key
that needed an update before the failed call still needs one after it.
(The original claim's "needs_update returns true afterwards" holds only
when the key was not already fresh before the call, as the counterexample
shows.) -/
theorem c3_failed_update_leaves_marker (s : FS) (k : CacheKey)
    (arts : List Artifact) (aroot : Option (List String)) (fa : Option Nat)
    (e : UpdErr) (hf : k.filename ≠ [])
    (he : (update s k arts aroot fa).2 = some e) :
    ((update s k arts aroot fa).1).files (sha_file k.filename) =
      s.files (sha_file k.filename) ∧
    (needs_update s k = .ok true →
      needs_update (update s k arts aroot fa).1 k = .ok true) := by
  have hm := update_marker_of_err s k arts aroot fa e hf he
  exact ⟨hm, fun h => by rw [needs_update_congr s _ k hm]; exact h⟩

/-- Witness for C3 (amended): a copy failure on an absent entry leaves
the entry absent. -/
theorem c3_failed_update_leaves_marker_witness :
    ((update ⟨fun _ => .missing⟩ ⟨[], "d", ["r", "i"]⟩
        [⟨["a", "f"], .file "z"⟩] none (some 0)).1).files
      (sha_file ["r", "i"]) = FS.files ⟨fun _ => .missing⟩ (sha_file ["r", "i"]) ∧
    (needs_update ⟨fun _ => .missing⟩ ⟨[], "d", ["r", "i"]⟩ = .ok true →
      needs_update (update ⟨fun _ => .missing⟩ ⟨[], "d", ["r", "i"]⟩
        [⟨["a", "f"], .file "z"⟩] none (some 0)).1 ⟨[], "d", ["r", "i"]⟩ = .ok true) :=
  c3_failed_update_leaves_marker ⟨fun _ => .missing⟩ ⟨[], "d", ["r", "i"]⟩
    [⟨["a", "f"], .file "z"⟩] none (some 0) (.ioError 5) (by simp) rfl

/-- C4 counterexample: the claim quantifies over every pair of distinct
ids.  Ids are joined into the entry path with `os.path.join`, so the id
`x/y` nests inside the id `x`; `invalidate` on `x` deletes the entry
directory and marker of `x/y`. -/
theorem c4_counterexample :
    CacheKey.filename ⟨[], "da", ["c", "0", "x"]⟩ ≠
      CacheKey.filename ⟨[], "db", ["c", "0", "x", "y"]⟩ ∧
    FS.files ⟨fun q => if q = ["c", "0", "x", "y", "out"] then .ok "o"
      else if q = ["c", "0", "x", "y.hash"] then .ok "db" else .missing⟩
      ["c", "0", "x", "y", "out"] = .ok "o" ∧
    (invalidate ⟨fun q => if q = ["c", "0", "x", "y", "out"] then .ok "o"
      else if q = ["c", "0", "x", "y.hash"] then .ok "db" else .missing⟩
      ⟨[], "da", ["c", "0", "x"]⟩).files ["c", "0", "x", "y", "out"] = .missing ∧
    FS.files ⟨fun q => if q = ["c", "0", "x", "y", "out"] then .ok "o"
      else if q = ["c", "0", "x", "y.hash"] then .ok "db" else .missing⟩
      (sha_file ["c", "0", "x", "y"]) = .ok "db" ∧
    (invalidate ⟨fun q => if q = ["c", "0", "x", "y", "out"] then .ok "o"
      else if q = ["c", "0", "x", "y.hash"] then .ok "db" else .missing⟩
      ⟨[], "da", ["c", "0", "x"]⟩).files (sha_file ["c", "0", "x", "y"]) = .missing :=
  ⟨by decide, rfl, rfl, rfl, rfl⟩

/-- C4 (amended): for ids that are flat names under the cache root
(no path separator, so one id cannot nest inside another) with neither id
equal to the other with `.hash` appended, `update` and `invalidate` on
id `a` change nothing at or under the entry directory of id `b` and do
not change `b`'s marker file. -/
theorem c4_flat_ids_isolated (s : FS) (root : List String) (a b : String)
    (kA : CacheKey) (hfa : kA.filename = root ++ [a])
    (fB : List String) (hfb : fB = root ++ [b])
    (hab : a ≠ b) (h1 : a ++ ".hash" ≠ b) (h2 : b ++ ".hash" ≠ a)
    (arts : List Artifact) (aroot : Option (List String)) (fa : Option Nat) :
    ∀ q, isPref fB q = true ∨ q = sha_file fB →
      ((update s kA arts aroot fa).1).files q = s.files q ∧
      (invalidate s kA).files q = s.files q := by
  intro q hq
  have hAB : isPref kA.filename fB = false := by
    rw [hfa, hfb]; exact isPref_snoc_ne root a b hab
  have hBA : isPref fB kA.filename = false := by
    rw [hfa, hfb]; exact isPref_snoc_ne root b a (Ne.symm hab)
  have hshB : sha_file fB = root ++ [b ++ ".hash"] := by
    rw [hfb, sha_file, appendToLast_snoc]
  have hshA : sha_file kA.filename = root ++ [a ++ ".hash"] := by
    rw [hfa, sha_file, appendToLast_snoc]
  have hqA : isPref kA.filename q = false := by
    rcases hq with hq | hq
    · cases hc : isPref kA.filename q with
      | false => rfl
      | true =>
        exfalso
        rcases isPref_comparable _ _ _ hc hq with h | h
        · rw [hAB] at h; cases h
        · rw [hBA] at h; cases h
    · rw [hq, hshB, hfa]
      exact isPref_snoc_ne root a (b ++ ".hash") (fun hh => h2 (hh.symm ▸ rfl))
  have hqm : q ≠ sha_file kA.filename := by
    rcases hq with hq | hq
    · intro hh
      rw [hh, hshA] at hq
      rw [hfb] at hq
      rw [isPref_append_cancel] at hq
      simp only [isPref, Bool.and_eq_true, decide_eq_true_eq] at hq
      exact h1 hq.1.symm
    · intro hh
      rw [hq, hshB, hshA] at hh
      have := List.append_cancel_left hh
      simp only [List.cons.injEq] at this
      exact hab (string_append_right_cancel this.1).symm
  exact ⟨update_frame s kA arts aroot fa q hqA hqm,
    invalidate_frame s kA q hqA hqm⟩

/-- Witness for C4 (amended) with ids `x` and `y` and a file of `y`'s
entry left untouched by an `update` and an `invalidate` on `x`. -/
theorem c4_flat_ids_isolated_witness :
    ((update ⟨fun _ => .missing⟩ ⟨[], "d", ["c", "0", "x"]⟩
        [⟨["a", "f"], .file "z"⟩] none none).1).files ["c", "0", "y", "f"] =
      FS.files ⟨fun _ => .missing⟩ ["c", "0", "y", "f"] ∧
    (invalidate ⟨fun _ => .missing⟩ ⟨[], "d", ["c", "0", "x"]⟩).files
      ["c", "0", "y", "f"] = FS.files ⟨fun _ => .missing⟩ ["c", "0", "y", "f"] :=
  c4_flat_ids_isolated ⟨fun _ => .missing⟩ ["c", "0"] "x" "y"
    ⟨[], "d", ["c", "0", "x"]⟩ rfl ["c", "0", "y"] rfl (by decide) (by decide)
    (by decide) [⟨["a", "f"], .file "z"⟩] none none
    ["c", "0", "y", "f"] (Or.inl (by decide))

/-- C5: an artifact whose computed relative destination escapes the entry
directory (its relative path resolves to a leading `..`) makes `update`
fail with the traversal violation (the assert), and the digest marker for
the key is not written in that call. -/
theorem c5_traversal_aborts_update (s : FS) (k : CacheKey)
    (arts : List Artifact) (aroot : Option (List String))
    (hf : k.filename ≠ [])
    (hesc : ∃ a ∈ arts, (relDest aroot a).headD "" = "..") :
    (∃ ar r, (update s k arts aroot none).2 = some (.traversalViolation ar r)) ∧
    ((update s k arts aroot none).1).files (sha_file k.filename) =
      s.files (sha_file k.filename) := by
  obtain ⟨ar, r, herr⟩ :=
    copyLoop_err_of_escape arts k.filename aroot 0 (s.rmtree k.filename) hesc
  have h2 : (update s k arts aroot none).2 = some (.traversalViolation ar r) := by
    rw [update]
    cases hc : copyLoop k.filename aroot none arts 0 (s.rmtree k.filename) with
    | mk t1 e1 =>
      rw [hc] at herr
      simp only at herr
      rw [herr]
  exact ⟨⟨ar, r, h2⟩,
    update_marker_of_err s k arts aroot none (.traversalViolation ar r) hf h2⟩

/-- Witness for C5: an artifact lying above its artifact root resolves to
the relative path `..` and aborts the update. -/
theorem c5_traversal_aborts_update_witness :
    (∃ ar r, (update ⟨fun _ => .missing⟩ ⟨[], "d", ["r", "i"]⟩
        [⟨["o", "x"], .file "z"⟩] (some ["o", "x", "deep"]) none).2 =
        some (.traversalViolation ar r)) ∧
    ((update ⟨fun _ => .missing⟩ ⟨[], "d", ["r", "i"]⟩
        [⟨["o", "x"], .file "z"⟩] (some ["o", "x", "deep"]) none).1).files
      (sha_file ["r", "i"]) = FS.files ⟨fun _ => .missing⟩ (sha_file ["r", "i"]) :=
  c5_traversal_aborts_update ⟨fun _ => .missing⟩ ⟨[], "d", ["r", "i"]⟩
    [⟨["o", "x"], .file "z"⟩] (some ["o", "x", "deep"]) (by simp)
    ⟨⟨["o", "x"], .file "z"⟩, by simp, by decide⟩

/-- C6 counterexample: the claim says that whenever the selector is
applicable or a `fingerprint_extra` is supplied, `key_for_target` returns
a key without raising.  With an extra fingerprint supplied but an
inapplicable selector (the default `TARGET_SOURCES` on a target without
`expand_files`), the precondition check passes and the call then raises
`AttributeError` from `sources.select(target)` instead of returning a key. -/
theorem c6_counterexample :
    SourceScope.valid SourceScope.targetSources ⟨["t"], none⟩ = false ∧
    (some "x" : Option String) ≠ none ∧
    key_for_target ["c", "0"] ⟨["t"], none⟩ (some .targetSources) (some "x") =
      .error .attributeError :=
  ⟨rfl, by simp, rfl⟩

/-- C6 (amended): `key_for_target` fails with the invalid-key-request
error exactly when neither a usable selector nor an extra fingerprint is
supplied; when the supplied selector is applicable to the target it
returns a CacheKey without raising.  (When only the extra fingerprint is
supplied and a non-null inapplicable selector is given, the call does not
raise the invalid-key error but can fail with an attribute error from the
selector, as the counterexample shows.) -/
theorem c6_invalid_key_request_iff (root : List String) (t : Target)
    (so : Option SourceScope) (ex : Option String) :
    (key_for_target root t so ex = .error .invalidKeyRequest ↔
      (¬ (so.isSome = true ∧ SourceScope.valid (so.getD .noSources) t = true) ∧
        ex = none)) ∧
    ((so.isSome = true ∧ SourceScope.valid (so.getD .noSources) t = true) →
      ∃ ck, key_for_target root t so ex = .ok ck) := by
  cases so with
  | none =>
    cases ex with
    | none => simp [key_for_target, SourceScope.valid, SourceScope.select]
    | some e => simp [key_for_target, SourceScope.valid, SourceScope.select]
  | some sc =>
    cases ht : t.expand_files with
    | none =>
      cases ex with
      | none => simp [key_for_target, SourceScope.valid, ht]
      | some e =>
        cases sc with
        | noSources => simp [key_for_target, SourceScope.valid, SourceScope.select, ht]
        | targetSources => simp [key_for_target, SourceScope.valid, SourceScope.select, ht]
        | transitiveSources => simp [key_for_target, SourceScope.valid, SourceScope.select, ht]
    | some f =>
      cases sc with
      | noSources => simp [key_for_target, SourceScope.valid, SourceScope.select, ht]
      | targetSources => simp [key_for_target, SourceScope.valid, SourceScope.select, ht]
      | transitiveSources => simp [key_for_target, SourceScope.valid, SourceScope.select, ht]

/-- Witness for C6 (amended): an applicable selector yields a key, and
the instantiated iff holds. -/
theorem c6_invalid_key_request_iff_witness :
    (key_for_target ["c", "0"] ⟨["t"], some (fun _ => [])⟩
        (some .targetSources) none = .error .invalidKeyRequest ↔
      (¬ ((some SourceScope.targetSources).isSome = true ∧
          SourceScope.valid ((some SourceScope.targetSources).getD .noSources)
            ⟨["t"], some (fun _ => [])⟩ = true) ∧
        (none : Option String) = none)) ∧
    (∃ ck, key_for_target ["c", "0"] ⟨["t"], some (fun _ => [])⟩
        (some .targetSources) none = .ok ck) :=
  ⟨(c6_invalid_key_request_iff ["c", "0"] ⟨["t"], some (fun _ => [])⟩
      (some .targetSources) none).1,
    (c6_invalid_key_request_iff ["c", "0"] ⟨["t"], some (fun _ => [])⟩
      (some .targetSources) none).2 ⟨rfl, rfl⟩⟩

/-- C7: `needs_update` returns true when no marker is stored (including a
read failing with the not-found errno), compares the stored value with
the key's digest otherwise (false exactly on a match, for markers free of
surrounding whitespace, as every marker the program writes is), and
propagates any other read errno to the caller. -/
theorem c7_needs_update_error_semantics (s : FS) (k : CacheKey) :
    (s.files (sha_file k.filename) = .missing → needs_update s k = .ok true) ∧
    (s.files (sha_file k.filename) = .err ENOENT → needs_update s k = .ok true) ∧
    (∀ m, s.files (sha_file k.filename) = .ok m → pyStrip m = m →
      (needs_update s k = .ok false ↔ m = k.hash)) ∧
    (∀ n, s.files (sha_file k.filename) = .err n → n ≠ ENOENT →
      needs_update s k = .error n) := by
  refine ⟨fun h => needs_update_of_missing s k h, fun h => ?_, fun m h hstrip => ?_,
    fun n h hn => ?_⟩
  · simp [needs_update, read_sha, h, Except.map]
  · rw [needs_update_of_marker s k m h, hstrip]
    by_cases hm : m = k.hash
    · simp [hm]
    · simp [hm]
  · simp [needs_update, read_sha, h, hn, Except.map]

/-- Witness for C7 on concrete absent, fresh and read-error markers. -/
theorem c7_needs_update_error_semantics_witness :
    needs_update ⟨fun _ => .missing⟩ ⟨[], "d", ["r", "i"]⟩ = .ok true ∧
    needs_update ⟨fun q => if q = ["r", "i.hash"] then .ok "d" else .missing⟩
      ⟨[], "d", ["r", "i"]⟩ = .ok false ∧
    needs_update ⟨fun q => if q = ["r", "i.hash"] then .err 13 else .missing⟩
      ⟨[], "d", ["r", "i"]⟩ = .error 13 :=
  ⟨(c7_needs_update_error_semantics ⟨fun _ => .missing⟩ ⟨[], "d", ["r", "i"]⟩).1 rfl,
    ((c7_needs_update_error_semantics
        ⟨fun q => if q = ["r", "i.hash"] then .ok "d" else .missing⟩
        ⟨[], "d", ["r", "i"]⟩).2.2.1 "d" rfl rfl).mpr rfl,
    (c7_needs_update_error_semantics
        ⟨fun q => if q = ["r", "i.hash"] then .err 13 else .missing⟩
        ⟨[], "d", ["r", "i"]⟩).2.2.2 13 rfl (by decide)⟩

/-- C8 counterexample: the claim says renaming a file (same content,
different relative name) always changes the stream.  Names and contents
are concatenated with no separator, so for the files `ab` and `aba` of
`/d`, both empty, renaming `ab` to `ba` leaves the stream `ababa`
unchanged and the digest identical, although the walked
(relative name, content) lists differ. -/
theorem c8_counterexample :
    walk_paths [("/d/ab", ANode.file ""), ("/d/aba", ANode.file "")] =
      [("ab", ""), ("aba", "")] ∧
    walk_paths [("/d/aba", ANode.file ""), ("/d/ba", ANode.file "")] =
      [("aba", ""), ("ba", "")] ∧
    sources_hash [("/d/ab", ANode.file ""), ("/d/aba", ANode.file "")] =
      sources_hash [("/d/aba", ANode.file ""), ("/d/ba", ANode.file "")] ∧
    hexDigest (sources_hash [("/d/ab", ANode.file ""), ("/d/aba", ANode.file "")]) =
      hexDigest (sources_hash [("/d/aba", ANode.file ""), ("/d/ba", ANode.file "")]) :=
  ⟨rfl, rfl, rfl, rfl⟩

/-- C8 (amended): changing one byte of a listed file's content always
changes the byte stream fed to the hash accumulator, and hence the
digest; renaming a file usually changes the stream but not always, as the
counterexample shows, because names and contents are concatenated without
separators. -/
theorem c8_content_byte_sensitivity (l : List (String × ANode)) (i : Nat)
    (p c c' : String) (j : Nat) (a0 b0 : Char)
    (hx : l[i]? = some (p, ANode.file c))
    (hj : c.data[j]? = some a0) (hset : c'.data = c.data.set j b0)
    (hab : a0 ≠ b0) :
    sources_hash l ≠ sources_hash (l.set i (p, ANode.file c')) ∧
    hexDigest (sources_hash l) ≠
      hexDigest (sources_hash (l.set i (p, ANode.file c'))) := by
  have hcc : c ≠ c' := by
    intro h
    have hlt : j < c.data.length := (List.getElem?_eq_some.mp hj).1
    have hgb : c'.data[j]? = some b0 := by
      rw [hset]
      exact List.getElem?_set_self hlt
    rw [← h, hj] at hgb
    exact hab (Option.some.inj hgb)
  exact ⟨sources_hash_set_ne l i p c c' hx hcc,
    fun h => sources_hash_set_ne l i p c c' hx hcc (hexDigest_inj _ _ h)⟩

/-- Witness for C8 (amended): flipping the byte `x` to `y` in a one-file
set changes the stream and the digest. -/
theorem c8_content_byte_sensitivity_witness :
    sources_hash [("/d/f", ANode.file "x")] ≠
      sources_hash ([("/d/f", ANode.file "x")].set 0 ("/d/f", ANode.file "y")) ∧
    hexDigest (sources_hash [("/d/f", ANode.file "x")]) ≠
      hexDigest (sources_hash ([("/d/f", ANode.file "x")].set 0
        ("/d/f", ANode.file "y"))) :=
  c8_content_byte_sensitivity [("/d/f", ANode.file "x")] 0 "/d/f" "x" "y" 0
    'x' 'y' rfl rfl rfl (by decide)

/-- C9: a second `update` with the same key and the same artifacts leaves
the entry directory (and the marker) exactly as the first one did: the
entry is deleted and fully re-staged, so the content under the entry path
after the second call equals the content after the first. -/
theorem c9_update_idempotent (s s1 : FS) (k : CacheKey) (arts : List Artifact)
    (aroot : Option (List String)) (hf : k.filename ≠ [])
    (h1 : update s k arts aroot none = (s1, none)) :
    (update s1 k arts aroot none).2 = none ∧
    ∀ q, isPref k.filename q = true ∨ q = sha_file k.filename →
      ((update s1 k arts aroot none).1).files q = s1.files q := by
  have hmreg : isPref k.filename (sha_file k.filename) = false :=
    not_isPref_sha_file _ hf
  rw [update] at h1
  cases hc1 : copyLoop k.filename aroot none arts 0 (s.rmtree k.filename) with
  | mk t1 e1 =>
    rw [hc1] at h1
    cases e1 with
    | some e => simp at h1
    | none =>
      simp only [Prod.mk.injEq] at h1
      have hs1 : s1 = write_sha t1 k := h1.1.symm
      have hagree : ∀ q, isPref k.filename q = true →
          (s1.rmtree k.filename).files q = (s.rmtree k.filename).files q := by
        intro q hq
        rw [rmtree_files, rmtree_files, hq]
        simp
      have herr2 : (copyLoop k.filename aroot none arts 0 (s1.rmtree k.filename)).2
          = none := by
        rw [copyLoop_snd_indep arts k.filename aroot none 0 _ (s.rmtree k.filename),
          hc1]
      rw [update]
      cases hc2 : copyLoop k.filename aroot none arts 0 (s1.rmtree k.filename) with
      | mk t2 e2 =>
        rw [hc2] at herr2
        simp only at herr2
        rw [herr2]
        refine ⟨rfl, fun q hq => ?_⟩
        rcases hq with hq | hq
        · have hqm : q ≠ sha_file k.filename := by
            intro hh
            rw [hh, hmreg] at hq
            cases hq
          have ht12 : t2.files q = t1.files q := by
            have := copyLoop_congr arts k.filename aroot none 0
              (s1.rmtree k.filename) (s.rmtree k.filename) hagree q hq
            rw [hc1, hc2] at this
            exact this
          rw [hs1]
          simp only [write_sha, setFile_files, hqm, if_false]
          exact ht12
        · rw [hq, hs1, write_sha_marker, write_sha_marker]

/-- Witness for C9: running the same one-artifact update twice leaves the
staged file as the first run left it. -/
theorem c9_update_idempotent_witness :
    (update (update ⟨fun _ => .missing⟩ ⟨[], "d", ["r", "i"]⟩
        [⟨["a", "f"], .file "z"⟩] none none).1 ⟨[], "d", ["r", "i"]⟩
      [⟨["a", "f"], .file "z"⟩] none none).2 = none ∧
    ((update (update ⟨fun _ => .missing⟩ ⟨[], "d", ["r", "i"]⟩
        [⟨["a", "f"], .file "z"⟩] none none).1 ⟨[], "d", ["r", "i"]⟩
      [⟨["a", "f"], .file "z"⟩] none none).1).files ["r", "i", "f"] =
      ((update ⟨fun _ => .missing⟩ ⟨[], "d", ["r", "i"]⟩
        [⟨["a", "f"], .file "z"⟩] none none).1).files ["r", "i", "f"] :=
  ⟨(c9_update_idempotent ⟨fun _ => .missing⟩ _ ⟨[], "d", ["r", "i"]⟩
      [⟨["a", "f"], .file "z"⟩] none (by simp) rfl).1,
    (c9_update_idempotent ⟨fun _ => .missing⟩ _ ⟨[], "d", ["r", "i"]⟩
      [⟨["a", "f"], .file "z"⟩] none (by simp) rfl).2
      ["r", "i", "f"] (Or.inl (by decide))⟩

/-- C10: the fingerprint stream is not injective on (relative name,
content) pairs: the single file `ab` of `/d` with content `c` and the
single file `a` with content `bc` walk to different (name, content)
lists but feed the identical stream `abc` to the accumulator, giving
identical digests. -/
theorem c10_stream_not_injective :
    walk_paths [("/d/ab", ANode.file "c")] ≠
      walk_paths [("/d/a", ANode.file "bc")] ∧
    sources_hash [("/d/ab", ANode.file "c")] =
      sources_hash [("/d/a", ANode.file "bc")] ∧
    hexDigest (sources_hash [("/d/ab", ANode.file "c")]) =
      hexDigest (sources_hash [("/d/a", ANode.file "bc")]) :=
  ⟨by decide, rfl, rfl⟩

end BuildCacheModel
